import Mathlib

/-!
# Verification of `orderedmap` (Go)

Shallow embedding of `orderedmap.go`: a generic hash map that preserves key
insertion order by pairing a key index (`data`) with a doubly linked list of
keys (`items`).

Modelling choices:
* Pointers to `node[K]` become indices (`Nat`) into an arena `heap : List (Node K)`;
  the nil pointer is `none : Option Nat`.  Fresh allocation appends to the arena,
  so live nodes have distinct indices, which models pointer identity.
* The Go map `data map[K]*element[K,V]` becomes an association list
  `List (K × Element V)`; Go map iteration order is never observed by the code,
  so the association-list order is a harmless refinement artifact.
* Go zero values become `default` via `Inhabited`.
* The closure returned by `Iterator()` becomes an explicit cursor
  (`Option Nat`) threaded through `iterNext`.
-/

namespace OrderedMap

/-- Source type `node[T]`: one doubly linked list element holding a key and
links to its neighbours (arena indices; `none` is nil). -/
structure Node (K : Type) where
  value : K
  prev : Option Nat := none
  next : Option Nat := none
  deriving DecidableEq, Repr

/-- Source type `element[K, V]`: a stored value paired with the arena index
(`item`) of the node that holds this entry's key in the order list. -/
structure Element (V : Type) where
  value : V
  item : Nat
  deriving DecidableEq, Repr

/-- Read a node's key through an arena index (`none` if the index is dangling). -/
def nodeValue {K : Type} (h : List (Node K)) (i : Nat) : Option K :=
  (h[i]?).map Node.value

/-- Read a node's `prev` pointer through an arena index. -/
def nodePrev {K : Type} (h : List (Node K)) (i : Nat) : Option Nat :=
  (h[i]?).bind Node.prev

/-- Read a node's `next` pointer through an arena index. -/
def nodeNext {K : Type} (h : List (Node K)) (i : Nat) : Option Nat :=
  (h[i]?).bind Node.next

/-- Write `n.next = nx` for the node at index `i` (no-op on a dangling index). -/
def setNext {K : Type} (h : List (Node K)) (i : Nat) (nx : Option Nat) : List (Node K) :=
  match h[i]? with
  | some nd => h.set i { nd with next := nx }
  | none => h

/-- Write `n.prev = pr` for the node at index `i` (no-op on a dangling index). -/
def setPrev {K : Type} (h : List (Node K)) (i : Nat) (pr : Option Nat) : List (Node K) :=
  match h[i]? with
  | some nd => h.set i { nd with prev := pr }
  | none => h

/-- Go map read `m[key]`: first matching entry of the association list. -/
def mapGet {K α : Type} [DecidableEq K] : List (K × α) → K → Option α
  | [], _ => none
  | (k, a) :: rest, key => if k = key then some a else mapGet rest key

/-- Go map write to an existing key (`m[key] = b` when `key` is present):
replace the matching entry in place. -/
def mapUpd {K α : Type} [DecidableEq K] : List (K × α) → K → α → List (K × α)
  | [], _, _ => []
  | (k, a) :: rest, key, b =>
    if k = key then (k, b) :: rest else (k, a) :: mapUpd rest key b

/-- Go map write to a fresh key (`m[key] = a` when `key` is absent). -/
def mapIns {K α : Type} (m : List (K × α)) (key : K) (a : α) : List (K × α) :=
  m ++ [(key, a)]

/-- Go `delete(m, key)`: drop the matching entry. -/
def mapDel {K α : Type} [DecidableEq K] : List (K × α) → K → List (K × α)
  | [], _ => []
  | (k, a) :: rest, key => if k = key then rest else (k, a) :: mapDel rest key

/-- Source method `list[T].push(n)`, on the state `(heap, head, tail)`;
`n` is the index of the node being appended.  The source dereferences `lst.tail`
in the nonempty branch; a nil tail with a non-nil head cannot arise, and that
impossible branch is totalised to a no-op. -/
def listPush {K : Type} (h : List (Node K)) (hd tl : Option Nat) (n : Nat) :
    List (Node K) × Option Nat × Option Nat :=
  match hd with
  | none => (h, some n, some n)
  | some _ =>
    match tl with
    | some t =>
      let h1 := setNext h t (some n)
      let h2 := setPrev h1 n (some t)
      (h2, hd, some n)
    | none => (h, hd, tl)

/-- Source method `list[T].remove(n)`, on the state `(heap, head, tail)`.
Pointer comparisons `n == lst.head` / `n == lst.tail` become index
comparisons.  `remove` never writes to the fields of `n` itself, so reading
`n.prev` / `n.next` from the current heap at each step matches the source. -/
def listRemove {K : Type} (h : List (Node K)) (hd tl : Option Nat) (n : Nat) :
    List (Node K) × Option Nat × Option Nat :=
  let h1 := match nodePrev h n with
    | some p => setNext h p (nodeNext h n)
    | none => h
  let h2 := match nodeNext h1 n with
    | some q => setPrev h1 q (nodePrev h1 n)
    | none => h1
  let hd' := if hd = some n then nodeNext h2 n else hd
  let tl' := if tl = some n then nodePrev h2 n else tl
  (h2, hd', tl')

/-- Source type `OrderedMap[K, V]`: key index `data` plus the order list
`items`, whose node arena is `heap` and whose head/tail pointers are
`head`/`tail`. -/
structure OM (K V : Type) where
  heap : List (Node K)
  data : List (K × Element V)
  head : Option Nat
  tail : Option Nat
  deriving DecidableEq, Repr

variable {K V : Type}

/-- Constructor `New()`: the empty ordered map. -/
def New : OM K V := ⟨[], [], none, none⟩

/-- Method `Len()`: the number of entries in the key index. -/
def OM.Len (om : OM K V) : Nat := om.data.length

/-- Method `Get(key)`. -/
def OM.Get [DecidableEq K] [Inhabited V] (om : OM K V) (key : K) : V × Bool :=
  match mapGet om.data key with
  | some e => (e.value, true)
  | none => (default, false)

/-- Method `Set(key, value)`, returning the new state and the source's return pair.

In the existing-key branch the source does
`old, ok := om.data[key]; om.data[key].value = value; return old.value, true`:
`old` is a *pointer* to the very element record the assignment mutates, so the
`old.value` that is returned reads the freshly written `value`, not the
previous one. -/
def OM.Set [DecidableEq K] [Inhabited V] (om : OM K V) (key : K) (v : V) :
    OM K V × V × Bool :=
  match mapGet om.data key with
  | some old =>
    ({ om with data := mapUpd om.data key { old with value := v } }, v, true)
  | none =>
    let n := om.heap.length
    let h := om.heap ++ [{ value := key : Node K }]
    let (h2, hd, tl) := listPush h om.head om.tail n
    ({ heap := h2, data := mapIns om.data key ⟨v, n⟩, head := hd, tail := tl },
      default, false)

/-- Method `Delete(key)`, returning the new state and the source's return pair. -/
def OM.Delete [DecidableEq K] [Inhabited V] (om : OM K V) (key : K) :
    OM K V × V × Bool :=
  match mapGet om.data key with
  | some e =>
    let (h2, hd, tl) := listRemove om.heap om.head om.tail e.item
    ({ heap := h2, data := mapDel om.data key, head := hd, tail := tl },
      e.value, true)
  | none => (om, default, false)

/-- Method `Iterator()` captures `curr := om.items.head` as the initial cursor. -/
def OM.Iterator (om : OM K V) : Option Nat := om.head

/-- One call to the closure returned by `Iterator()`: takes the captured
cursor, returns `(key, value, ok)` and the updated cursor.  The source reads
`om.data[key].value` through a non-nil pointer; a cursor at a dangling index
or a key missing from `data` cannot arise while the map is not mutated during
iteration, and those impossible reads are totalised to `default`. -/
def OM.iterNext [DecidableEq K] [Inhabited K] [Inhabited V] (om : OM K V)
    (curr : Option Nat) : K × V × Bool × Option Nat :=
  match curr with
  | none => (default, default, false, none)
  | some c =>
    match om.heap[c]? with
    | none => (default, default, false, none)
    | some nd =>
      let key := nd.value
      let v := match mapGet om.data key with
        | some e => e.value
        | none => default
      (key, v, true, nd.next)

/-- Run the iterator `fuel` calls (or until it signals termination), collecting
the produced pairs: the loop
`for k, v, ok := next(); ok; k, v, ok = next() { ... }` from the source. -/
def OM.runIter [DecidableEq K] [Inhabited K] [Inhabited V] (om : OM K V) :
    Nat → Option Nat → List (K × V)
  | 0, _ => []
  | fuel + 1, cur =>
    match om.iterNext cur with
    | (k, v, true, cur') => (k, v) :: om.runIter fuel cur'
    | (_, _, false, _) => []

/-- The full pair sequence produced by a fresh iterator (`Len om` calls always
suffice for states reachable through the API). -/
def OM.toPairs [DecidableEq K] [Inhabited K] [Inhabited V] (om : OM K V) :
    List (K × V) :=
  om.runIter om.Len om.Iterator

/-- Advance the cursor `n` more calls past a given cursor position. -/
def OM.skipN [DecidableEq K] [Inhabited K] [Inhabited V] (om : OM K V) :
    Nat → Option Nat → Option Nat
  | 0, cur => cur
  | n + 1, cur => om.skipN n (om.iterNext cur).2.2.2

/-! ## Pointwise lemmas about the node arena -/

@[simp] theorem length_setNext (h : List (Node K)) (i : Nat) (nx : Option Nat) :
    (setNext h i nx).length = h.length := by
  unfold setNext; cases h[i]? <;> simp

@[simp] theorem length_setPrev (h : List (Node K)) (i : Nat) (pr : Option Nat) :
    (setPrev h i pr).length = h.length := by
  unfold setPrev; cases h[i]? <;> simp

theorem getElem?_setNext (h : List (Node K)) (j : Nat) (nx : Option Nat) (i : Nat) :
    (setNext h j nx)[i]? =
      if i = j then (h[j]?).map (fun nd => { nd with next := nx }) else h[i]? := by
  cases hj : h[j]? with
  | none =>
    have hs : setNext h j nx = h := by simp only [setNext, hj]
    rw [hs]
    split
    · next heq => subst heq; rw [hj]; rfl
    · rfl
  | some nd =>
    have hjlen : j < h.length := by
      rcases Nat.lt_or_ge j h.length with hlt | hge
      · exact hlt
      · simp [List.getElem?_eq_none hge] at hj
    have hs : setNext h j nx = h.set j { nd with next := nx } := by
      simp only [setNext, hj]
    rw [hs]
    split
    · next heq => subst heq; simp [List.getElem?_set_self hjlen, hj]
    · next hne => exact List.getElem?_set_ne (fun hc => hne hc.symm)

theorem getElem?_setPrev (h : List (Node K)) (j : Nat) (pr : Option Nat) (i : Nat) :
    (setPrev h j pr)[i]? =
      if i = j then (h[j]?).map (fun nd => { nd with prev := pr }) else h[i]? := by
  cases hj : h[j]? with
  | none =>
    have hs : setPrev h j pr = h := by simp only [setPrev, hj]
    rw [hs]
    split
    · next heq => subst heq; rw [hj]; rfl
    · rfl
  | some nd =>
    have hjlen : j < h.length := by
      rcases Nat.lt_or_ge j h.length with hlt | hge
      · exact hlt
      · simp [List.getElem?_eq_none hge] at hj
    have hs : setPrev h j pr = h.set j { nd with prev := pr } := by
      simp only [setPrev, hj]
    rw [hs]
    split
    · next heq => subst heq; simp [List.getElem?_set_self hjlen, hj]
    · next hne => exact List.getElem?_set_ne (fun hc => hne hc.symm)

@[simp] theorem nodeValue_setNext (h : List (Node K)) (j : Nat) (nx : Option Nat) (i : Nat) :
    nodeValue (setNext h j nx) i = nodeValue h i := by
  unfold nodeValue
  rw [getElem?_setNext]
  split
  · next heq => rw [heq]; cases h[j]? <;> rfl
  · rfl

@[simp] theorem nodePrev_setNext (h : List (Node K)) (j : Nat) (nx : Option Nat) (i : Nat) :
    nodePrev (setNext h j nx) i = nodePrev h i := by
  unfold nodePrev
  rw [getElem?_setNext]
  split
  · next heq => rw [heq]; cases h[j]? <;> rfl
  · rfl

@[simp] theorem nodeValue_setPrev (h : List (Node K)) (j : Nat) (pr : Option Nat) (i : Nat) :
    nodeValue (setPrev h j pr) i = nodeValue h i := by
  unfold nodeValue
  rw [getElem?_setPrev]
  split
  · next heq => rw [heq]; cases h[j]? <;> rfl
  · rfl

@[simp] theorem nodeNext_setPrev (h : List (Node K)) (j : Nat) (pr : Option Nat) (i : Nat) :
    nodeNext (setPrev h j pr) i = nodeNext h i := by
  unfold nodeNext
  rw [getElem?_setPrev]
  split
  · next heq => rw [heq]; cases h[j]? <;> rfl
  · rfl

theorem nodeNext_setNext_self (h : List (Node K)) (j : Nat) (nx : Option Nat)
    (hj : j < h.length) : nodeNext (setNext h j nx) j = nx := by
  unfold nodeNext
  rw [getElem?_setNext]
  simp [List.getElem?_eq_getElem hj]

theorem nodeNext_setNext_ne (h : List (Node K)) (j : Nat) (nx : Option Nat) (i : Nat)
    (hij : i ≠ j) : nodeNext (setNext h j nx) i = nodeNext h i := by
  unfold nodeNext
  rw [getElem?_setNext]
  simp [hij]

theorem nodePrev_setPrev_self (h : List (Node K)) (j : Nat) (pr : Option Nat)
    (hj : j < h.length) : nodePrev (setPrev h j pr) j = pr := by
  unfold nodePrev
  rw [getElem?_setPrev]
  simp [List.getElem?_eq_getElem hj]

theorem nodePrev_setPrev_ne (h : List (Node K)) (j : Nat) (pr : Option Nat) (i : Nat)
    (hij : i ≠ j) : nodePrev (setPrev h j pr) i = nodePrev h i := by
  unfold nodePrev
  rw [getElem?_setPrev]
  simp [hij]

theorem nodeValue_append_lt (h t : List (Node K)) (i : Nat) (hi : i < h.length) :
    nodeValue (h ++ t) i = nodeValue h i := by
  unfold nodeValue
  rw [List.getElem?_append, if_pos hi]

theorem nodePrev_append_lt (h t : List (Node K)) (i : Nat) (hi : i < h.length) :
    nodePrev (h ++ t) i = nodePrev h i := by
  unfold nodePrev
  rw [List.getElem?_append, if_pos hi]

theorem nodeNext_append_lt (h t : List (Node K)) (i : Nat) (hi : i < h.length) :
    nodeNext (h ++ t) i = nodeNext h i := by
  unfold nodeNext
  rw [List.getElem?_append, if_pos hi]

@[simp] theorem nodeValue_concat_self (h : List (Node K)) (nd : Node K) :
    nodeValue (h ++ [nd]) h.length = some nd.value := by
  unfold nodeValue
  rw [List.getElem?_concat_length]
  rfl

@[simp] theorem nodePrev_concat_self (h : List (Node K)) (nd : Node K) :
    nodePrev (h ++ [nd]) h.length = nd.prev := by
  unfold nodePrev
  rw [List.getElem?_concat_length]
  rfl

@[simp] theorem nodeNext_concat_self (h : List (Node K)) (nd : Node K) :
    nodeNext (h ++ [nd]) h.length = nd.next := by
  unfold nodeNext
  rw [List.getElem?_concat_length]
  rfl

/-! ## Lemmas about the Go-map model -/

theorem mapGet_eq_none_iff {α : Type} [DecidableEq K] (l : List (K × α)) (key : K) :
    mapGet l key = none ↔ key ∉ l.map Prod.fst := by
  induction l with
  | nil => simp [mapGet]
  | cons p rest ih =>
    obtain ⟨k, a⟩ := p
    by_cases hk : k = key
    · subst hk; simp [mapGet]
    · simp only [mapGet, if_neg hk, List.map_cons, List.mem_cons, ih]
      constructor
      · rintro hna (hc | hc)
        · exact hk hc.symm
        · exact hna hc
      · intro hna hc
        exact hna (Or.inr hc)

theorem mapGet_mem {α : Type} [DecidableEq K] {l : List (K × α)} {key : K} {a : α}
    (hget : mapGet l key = some a) : (key, a) ∈ l := by
  induction l with
  | nil => simp [mapGet] at hget
  | cons p rest ih =>
    obtain ⟨k, b⟩ := p
    by_cases hk : k = key
    · subst hk
      simp [mapGet] at hget
      subst hget
      exact List.mem_cons_self _ _
    · simp [mapGet, hk] at hget
      exact List.mem_cons_of_mem _ (ih hget)

theorem mapGet_of_mem_nodup {α : Type} [DecidableEq K] {l : List (K × α)} {key : K} {a : α}
    (hnd : (l.map Prod.fst).Nodup) (hmem : (key, a) ∈ l) : mapGet l key = some a := by
  induction l with
  | nil => simp at hmem
  | cons p rest ih =>
    obtain ⟨k, b⟩ := p
    simp only [List.map_cons, List.nodup_cons] at hnd
    rcases List.mem_cons.mp hmem with heq | hmem'
    · cases heq
      simp [mapGet]
    · have hk : k ≠ key := by
        intro hc
        subst hc
        exact hnd.1 (List.mem_map.mpr ⟨(k, a), hmem', rfl⟩)
      simp [mapGet, hk]
      exact ih hnd.2 hmem'

theorem map_fst_mapUpd {α : Type} [DecidableEq K] (l : List (K × α)) (key : K) (b : α) :
    (mapUpd l key b).map Prod.fst = l.map Prod.fst := by
  induction l with
  | nil => rfl
  | cons p rest ih =>
    obtain ⟨k, a⟩ := p
    by_cases hk : k = key
    · simp [mapUpd, hk]
    · simp [mapUpd, hk, ih]

theorem map_mapUpd {α β : Type} [DecidableEq K] {l : List (K × α)} {key : K} {a : α}
    (f : K × α → β) (b : α) (hget : mapGet l key = some a)
    (hf : f (key, b) = f (key, a)) : (mapUpd l key b).map f = l.map f := by
  induction l with
  | nil => rfl
  | cons p rest ih =>
    obtain ⟨k, c⟩ := p
    by_cases hk : k = key
    · subst hk
      simp [mapGet] at hget
      subst hget
      simp [mapUpd, hf]
    · simp [mapGet, hk] at hget
      simp [mapUpd, hk, ih hget]

theorem mem_mapUpd {α : Type} [DecidableEq K] {l : List (K × α)} {key : K} {b : α} :
    ∀ p ∈ mapUpd l key b, p = (key, b) ∨ p ∈ l := by
  induction l with
  | nil => simp [mapUpd]
  | cons q rest ih =>
    obtain ⟨k, a⟩ := q
    intro p hp
    by_cases hk : k = key
    · subst hk
      simp only [mapUpd, if_pos rfl] at hp
      rcases List.mem_cons.mp hp with h1 | h2
      · exact Or.inl h1
      · exact Or.inr (List.mem_cons_of_mem _ h2)
    · simp only [mapUpd, if_neg hk] at hp
      rcases List.mem_cons.mp hp with h1 | h2
      · exact Or.inr (h1 ▸ List.mem_cons_self _ _)
      · rcases ih p h2 with h3 | h3
        · exact Or.inl h3
        · exact Or.inr (List.mem_cons_of_mem _ h3)

theorem mapGet_split {α : Type} [DecidableEq K] {l : List (K × α)} {key : K} {e : α}
    (hget : mapGet l key = some e) :
    ∃ l1 l2, l = l1 ++ (key, e) :: l2 ∧ key ∉ l1.map Prod.fst ∧
      mapDel l key = l1 ++ l2 := by
  induction l with
  | nil => simp [mapGet] at hget
  | cons p rest ih =>
    obtain ⟨k, a⟩ := p
    by_cases hk : k = key
    · subst hk
      simp [mapGet] at hget
      subst hget
      exact ⟨[], rest, by simp [mapDel]⟩
    · simp [mapGet, hk] at hget
      obtain ⟨l1, l2, hl, hnot, hdel⟩ := ih hget
      refine ⟨(k, a) :: l1, l2, by simp [hl], ?_, by simp [mapDel, hk, hdel]⟩
      simp only [List.map_cons, List.mem_cons]
      rintro (hc | hc)
      · exact hk hc.symm
      · exact hnot hc

theorem mapDel_eq_of_none {α : Type} [DecidableEq K] {l : List (K × α)} {key : K}
    (hget : mapGet l key = none) : mapDel l key = l := by
  induction l with
  | nil => rfl
  | cons p rest ih =>
    obtain ⟨k, a⟩ := p
    by_cases hk : k = key
    · subst hk; simp [mapGet] at hget
    · simp [mapGet, hk] at hget
      simp [mapDel, hk, ih hget]

theorem length_mapDel {α : Type} [DecidableEq K] {l : List (K × α)} {key : K} {e : α}
    (hget : mapGet l key = some e) : (mapDel l key).length + 1 = l.length := by
  obtain ⟨l1, l2, hl, _, hdel⟩ := mapGet_split hget
  subst hl
  simp [hdel]
  omega

theorem mapGet_mapDel_self {α : Type} [DecidableEq K] {l : List (K × α)} {key : K}
    (hnd : (l.map Prod.fst).Nodup) : mapGet (mapDel l key) key = none := by
  cases hget : mapGet l key with
  | none => rw [mapDel_eq_of_none hget]; exact hget
  | some e =>
    obtain ⟨l1, l2, hl, hnot1, hdel⟩ := mapGet_split hget
    subst hl
    rw [hdel, mapGet_eq_none_iff]
    simp only [List.map_append, List.nodup_append] at hnd
    obtain ⟨-, hnd2, hdisj⟩ := hnd
    simp only [List.map_append, List.mem_append]
    rintro (hc | hc)
    · exact hnot1 hc
    · exact (List.nodup_cons.mp hnd2).1 hc

/-! ## Option and list helpers -/

theorem head?_append_or {α : Type} (l1 l2 : List α) :
    (l1 ++ l2).head? = Option.or l1.head? l2.head? := by
  cases l1 <;> simp [Option.or]

theorem getLast?_cons_or {α : Type} (a : α) (l : List α) :
    (a :: l).getLast? = Option.or l.getLast? (some a) := by
  cases l with
  | nil => rfl
  | cons b l' =>
    rw [List.getLast?_cons_cons]
    cases hgl : (b :: l').getLast? with
    | none =>
      have : (b :: l') ≠ [] := by simp
      rw [← List.getLast?_isSome] at this
      rw [hgl] at this
      simp at this
    | some x => simp [Option.or]

theorem getLast?_mem_of_eq {α : Type} {l : List α} {a : α} (h : l.getLast? = some a) :
    a ∈ l := by
  have hne : l ≠ [] := by
    intro hc
    subst hc
    simp at h
  rw [List.getLast?_eq_getLast l hne] at h
  cases h
  exact List.getLast_mem hne

/-! ## The doubly linked segment predicate -/

/-- Predicate `seg h pr ids nx`: the arena indices `ids` form a consecutive doubly
linked chain in `h`; the `prev` of the first node is `pr`, consecutive nodes
point at each other, and the `next` of the last node is `nx`. -/
def seg (h : List (Node K)) : Option Nat → List Nat → Option Nat → Bool
  | _, [], _ => true
  | pr, i :: rest, nx =>
    decide (i < h.length) && decide (nodePrev h i = pr) &&
      decide (nodeNext h i = Option.or rest.head? nx) && seg h (some i) rest nx

theorem seg_cons_iff (h : List (Node K)) (pr nx : Option Nat) (i : Nat)
    (rest : List Nat) :
    seg h pr (i :: rest) nx = true ↔
      i < h.length ∧ nodePrev h i = pr ∧
        nodeNext h i = Option.or rest.head? nx ∧ seg h (some i) rest nx = true := by
  simp [seg, and_assoc]

theorem seg_valid {h : List (Node K)} {ids : List Nat} :
    ∀ {pr nx : Option Nat}, seg h pr ids nx = true → ∀ i ∈ ids, i < h.length := by
  induction ids with
  | nil => intro pr nx _ i hi; simp at hi
  | cons a rest ih =>
    intro pr nx hseg i hi
    rw [seg_cons_iff] at hseg
    rcases List.mem_cons.mp hi with h1 | h2
    · exact h1 ▸ hseg.1
    · exact ih hseg.2.2.2 i h2

theorem seg_congr {h h2 : List (Node K)} {ids : List Nat}
    (hfr : ∀ i ∈ ids, (i < h2.length ↔ i < h.length) ∧
      nodePrev h2 i = nodePrev h i ∧ nodeNext h2 i = nodeNext h i) :
    ∀ pr nx, seg h2 pr ids nx = seg h pr ids nx := by
  induction ids with
  | nil => intro pr nx; rfl
  | cons a rest ih =>
    intro pr nx
    have ha := hfr a (List.mem_cons_self _ _)
    have ihr := ih (fun i hi => hfr i (List.mem_cons_of_mem _ hi))
    simp only [seg, ha.1, ha.2.1, ha.2.2, ihr]

theorem seg_append (h : List (Node K)) (l1 l2 : List Nat) (pr nx : Option Nat) :
    seg h pr (l1 ++ l2) nx = true ↔
      seg h pr l1 (Option.or l2.head? nx) = true ∧
        seg h (Option.or l1.getLast? pr) l2 nx = true := by
  induction l1 generalizing pr with
  | nil => simp [seg, Option.none_or]
  | cons a l1' ih =>
    simp only [List.cons_append, seg_cons_iff, head?_append_or, Option.or_assoc,
      getLast?_cons_or, ih (some a)]
    have hsome : (some a).or pr = some a := rfl
    rw [hsome]
    tauto

/-- The `prev` of the first node of a chain can be retargeted: if only that
field changed (and the rest of the chain is untouched), the chain survives
with the new incoming pointer. -/
theorem seg_retarget_head {h h2 : List (Node K)} {q : Nat} {rest : List Nat}
    {pr pr' nx : Option Nat}
    (hseg : seg h pr (q :: rest) nx = true)
    (hfr : ∀ i ∈ rest, (i < h2.length ↔ i < h.length) ∧
      nodePrev h2 i = nodePrev h i ∧ nodeNext h2 i = nodeNext h i)
    (hqlen : q < h2.length) (hq : nodePrev h2 q = pr')
    (hqn : nodeNext h2 q = nodeNext h q) :
    seg h2 pr' (q :: rest) nx = true := by
  rw [seg_cons_iff] at hseg ⊢
  obtain ⟨-, -, hnext, htail⟩ := hseg
  exact ⟨hqlen, hq, by rw [hqn, hnext], by rw [seg_congr hfr]; exact htail⟩

/-- The `next` of the last node of a chain can be retargeted: if only that
field changed (and the rest of the chain is untouched), the chain survives
with the new outgoing pointer. -/
theorem seg_retarget_last {h h2 : List (Node K)} {ids : List Nat} {t : Nat}
    {pr nx nx' : Option Nat}
    (hseg : seg h pr ids nx = true) (hlast : ids.getLast? = some t)
    (hnd : ids.Nodup)
    (hfr : ∀ i ∈ ids, i ≠ t → (i < h2.length ↔ i < h.length) ∧
      nodePrev h2 i = nodePrev h i ∧ nodeNext h2 i = nodeNext h i)
    (htlen : t < h2.length) (htp : nodePrev h2 t = nodePrev h t)
    (htn : nodeNext h2 t = nx') :
    seg h2 pr ids nx' = true := by
  have hne : ids ≠ [] := by
    intro hc
    subst hc
    simp at hlast
  have hT : ids.getLast hne = t := by
    rw [List.getLast?_eq_getLast ids hne, Option.some_inj] at hlast
    exact hlast
  have hdecomp : ids.dropLast ++ [t] = ids := by
    rw [← hT]
    exact List.dropLast_append_getLast hne
  have hnd2 : t ∉ ids.dropLast := by
    rw [← hdecomp, List.nodup_append] at hnd
    exact fun hc => hnd.2.2 hc (List.mem_cons_self t [])
  have hmem : ∀ i ∈ ids.dropLast, i ∈ ids := by
    intro i hi
    rw [← hdecomp]
    exact List.mem_append_left _ hi
  rw [← hdecomp] at hseg ⊢
  rw [seg_append] at hseg ⊢
  obtain ⟨hs1, hs2⟩ := hseg
  have hor : ∀ o : Option Nat, Option.or ([t].head?) o = some t := fun _ => rfl
  rw [hor] at hs1
  rw [hor]
  constructor
  · rw [seg_congr (fun i hi => hfr i (hmem i hi) (fun hc => hnd2 (hc ▸ hi)))]
    exact hs1
  · rw [seg_cons_iff] at hs2 ⊢
    refine ⟨htlen, by rw [htp]; exact hs2.2.1, ?_, rfl⟩
    rw [htn]
    rfl

/-! ## The central invariant -/

/-- The arena indices of the nodes referenced by the key index, in the order
the entries sit in `data` (which, by construction, is first-insertion order). -/
def items (om : OM K V) : List Nat := om.data.map (fun p => p.2.item)

/-- The keys currently stored in the key index, in first-insertion order. -/
def keys (om : OM K V) : List K := om.data.map Prod.fst

/-- The central representation invariant: keys are unique, the referenced
nodes are pairwise distinct, each referenced node holds the key of its entry
(`index` and `order` are in 1:1 correspondence through `positionRef`),
`head`/`tail` delimit exactly the chain of referenced nodes, and that chain is
doubly linked with nil ends. -/
def Inv [DecidableEq K] (om : OM K V) : Bool :=
  decide (keys om).Nodup && decide (items om).Nodup &&
    om.data.all (fun p => decide (nodeValue om.heap p.2.item = some p.1)) &&
    decide (om.head = (items om).head?) && decide (om.tail = (items om).getLast?) &&
    seg om.heap none (items om) none

theorem Inv_iff [DecidableEq K] (om : OM K V) :
    Inv om = true ↔
      (keys om).Nodup ∧ (items om).Nodup ∧
        (∀ p ∈ om.data, nodeValue om.heap p.2.item = some p.1) ∧
        om.head = (items om).head? ∧ om.tail = (items om).getLast? ∧
        seg om.heap none (items om) none = true := by
  simp [Inv, List.all_eq_true, and_assoc]

theorem Inv_New [DecidableEq K] : Inv (New : OM K V) = true := by
  rw [Inv_iff]
  refine ⟨?_, ?_, ?_, rfl, rfl, rfl⟩ <;> simp [keys, items, New]

/-- Appending a fresh node (the `push` surgery of `Set` on a new key, nonempty
case): the chain `ids` extends by the fresh index `h.length`. -/
theorem seg_push {h : List (Node K)} {ids : List Nat} {t : Nat} {key : K}
    (hseg : seg h none ids none = true) (hlast : ids.getLast? = some t)
    (hnd : ids.Nodup) :
    seg (setPrev (setNext (h ++ [{ value := key : Node K }]) t (some h.length))
        h.length (some t)) none (ids ++ [h.length]) none = true := by
  have hvalid := seg_valid hseg
  have htmem : t ∈ ids := getLast?_mem_of_eq hlast
  have htlt : t < h.length := hvalid t htmem
  have hlen' : (h ++ [{ value := key : Node K }]).length = h.length + 1 := by simp
  rw [seg_append]
  constructor
  · have hor : Option.or ([h.length].head?) none = some h.length := rfl
    rw [hor]
    refine seg_retarget_last hseg hlast hnd ?_ (by simp; omega) ?_ ?_
    · intro i hi hit
      have hilt : i < h.length := hvalid i hi
      have hin : i ≠ h.length := by omega
      refine ⟨iff_of_true (by simp; omega) hilt, ?_, ?_⟩
      · rw [nodePrev_setPrev_ne _ _ _ _ hin, nodePrev_setNext,
          nodePrev_append_lt _ _ _ hilt]
      · rw [nodeNext_setPrev, nodeNext_setNext_ne _ _ _ _ hit,
          nodeNext_append_lt _ _ _ hilt]
    · have htn : t ≠ h.length := by omega
      rw [nodePrev_setPrev_ne _ _ _ _ htn, nodePrev_setNext,
        nodePrev_append_lt _ _ _ htlt]
    · rw [nodeNext_setPrev, nodeNext_setNext_self]
      omega
  · rw [hlast]
    have hor : Option.or (some t) none = some t := rfl
    rw [hor, seg_cons_iff]
    have hnn : h.length ≠ t := by omega
    refine ⟨by simp, ?_, ?_, rfl⟩
    · exact nodePrev_setPrev_self _ _ _ (by simp)
    · rw [nodeNext_setPrev, nodeNext_setNext_ne _ _ _ _ hnn, nodeNext_concat_self]
      rfl

/-- The heap after the two relinking writes of `list.remove(n)` (the head/tail
updates of `remove` do not touch the arena). -/
def removeHeap {K₀ : Type} (h : List (Node K₀)) (n : Nat) : List (Node K₀) :=
  let h1 := match nodePrev h n with
    | some p => setNext h p (nodeNext h n)
    | none => h
  match nodeNext h1 n with
  | some q => setPrev h1 q (nodePrev h1 n)
  | none => h1

theorem listRemove_eq {K₀ : Type} (h : List (Node K₀)) (hd tl : Option Nat) (n : Nat) :
    listRemove h hd tl n =
      (removeHeap h n,
        if hd = some n then nodeNext (removeHeap h n) n else hd,
        if tl = some n then nodePrev (removeHeap h n) n else tl) := rfl

/-- Full characterisation of the `remove` relinking surgery on a well-formed
chain `l1 ++ x :: l2`: the arena keeps its size and key values, the removed
node keeps its own (now stale) links, and the chain `l1 ++ l2` is again a
well-formed doubly linked chain. -/
theorem removeHeap_spec {h : List (Node K)} {l1 l2 : List Nat} {x : Nat}
    (hseg0 : seg h none (l1 ++ x :: l2) none = true)
    (hnd : (l1 ++ x :: l2).Nodup) :
    (removeHeap h x).length = h.length ∧
      (∀ i, nodeValue (removeHeap h x) i = nodeValue h i) ∧
      nodeNext (removeHeap h x) x = l2.head? ∧
      nodePrev (removeHeap h x) x = l1.getLast? ∧
      seg (removeHeap h x) none (l1 ++ l2) none = true := by
  have hvalid := seg_valid hseg0
  have hxlt : x < h.length := hvalid x (List.mem_append_right _ (List.mem_cons_self _ _))
  have hv1 : ∀ i ∈ l1, i < h.length := fun i hi => hvalid i (List.mem_append_left _ hi)
  have hv2 : ∀ i ∈ l2, i < h.length :=
    fun i hi => hvalid i (List.mem_append_right _ (List.mem_cons_of_mem _ hi))
  rw [List.nodup_append] at hnd
  obtain ⟨hnd1, hndx2, hdisj⟩ := hnd
  rw [List.nodup_cons] at hndx2
  obtain ⟨hxl2, hnd2⟩ := hndx2
  have hxl1 : x ∉ l1 := fun hc => hdisj hc (List.mem_cons_self _ _)
  have hd12 : ∀ i ∈ l1, i ∉ l2 := fun i hi hc => hdisj hi (List.mem_cons_of_mem _ hc)
  rw [seg_append] at hseg0
  obtain ⟨hs1, hs2⟩ := hseg0
  have hor1 : Option.or ((x :: l2).head?) none = some x := rfl
  rw [hor1] at hs1
  rw [Option.or_none, seg_cons_iff] at hs2
  obtain ⟨-, hxprev, hxnext, hs3⟩ := hs2
  rw [Option.or_none] at hxnext
  cases hl2 : l2 with
  | nil =>
    subst hl2
    have hxnext' : nodeNext h x = none := hxnext
    cases hgl : l1.getLast? with
    | none =>
      have hl1 : l1 = [] := List.getLast?_eq_none_iff.mp hgl
      subst hl1
      have hxprev' : nodePrev h x = none := by rw [hxprev, hgl]
      have hre : removeHeap h x = h := by
        simp only [removeHeap, hxprev', hxnext']
      rw [hre]
      exact ⟨rfl, fun i => rfl, hxnext', by rw [hxprev, hgl], rfl⟩
    | some p =>
      have hpl1 : p ∈ l1 := getLast?_mem_of_eq hgl
      have hplt : p < h.length := hv1 p hpl1
      have hxp : x ≠ p := fun hc => hxl1 (hc ▸ hpl1)
      have hxprev' : nodePrev h x = some p := by rw [hxprev, hgl]
      have f1 : nodeNext (setNext h p none) x = none := by
        rw [nodeNext_setNext_ne _ _ _ _ hxp]
        exact hxnext'
      have hre : removeHeap h x = setNext h p none := by
        simp only [removeHeap, hxprev', hxnext', f1]
      rw [hre]
      refine ⟨by simp, fun i => by simp, f1, ?_, ?_⟩
      · rw [nodePrev_setNext, hxprev, hgl]
      · rw [List.append_nil]
        refine seg_retarget_last hs1 hgl hnd1 ?_ (by simp [hplt]) ?_ ?_
        · intro i hi hip
          exact ⟨by simp, nodePrev_setNext _ _ _ _, nodeNext_setNext_ne _ _ _ _ hip⟩
        · exact nodePrev_setNext _ _ _ _
        · exact nodeNext_setNext_self _ _ _ hplt
  | cons q l2' =>
    subst hl2
    have hql2 : q ∈ q :: l2' := List.mem_cons_self _ _
    have hqlt : q < h.length := hv2 q hql2
    have hxq : x ≠ q := fun hc => hxl2 (hc ▸ hql2)
    have hql2' : q ∉ l2' := (List.nodup_cons.mp hnd2).1
    have hxnext' : nodeNext h x = some q := hxnext
    cases hgl : l1.getLast? with
    | none =>
      have hl1 : l1 = [] := List.getLast?_eq_none_iff.mp hgl
      subst hl1
      have hxprev' : nodePrev h x = none := by rw [hxprev, hgl]
      have hre : removeHeap h x = setPrev h q none := by
        simp only [removeHeap, hxprev', hxnext']
      rw [hre]
      refine ⟨by simp, fun i => by simp, ?_, ?_, ?_⟩
      · rw [nodeNext_setPrev]
        exact hxnext'
      · rw [nodePrev_setPrev_ne _ _ _ _ hxq, hxprev, hgl]
      · rw [List.nil_append]
        refine seg_retarget_head hs3 ?_ (by simp [hqlt]) ?_ (nodeNext_setPrev _ _ _ _)
        · intro i hi
          have hiq : i ≠ q := fun hc => hql2' (hc ▸ hi)
          exact ⟨by simp, nodePrev_setPrev_ne _ _ _ _ hiq, nodeNext_setPrev _ _ _ _⟩
        · exact nodePrev_setPrev_self _ _ _ hqlt
    | some p =>
      have hpl1 : p ∈ l1 := getLast?_mem_of_eq hgl
      have hplt : p < h.length := hv1 p hpl1
      have hxp : x ≠ p := fun hc => hxl1 (hc ▸ hpl1)
      have hpq : p ≠ q := fun hc => hd12 p hpl1 (hc ▸ hql2)
      have hxprev' : nodePrev h x = some p := by rw [hxprev, hgl]
      have f1 : nodeNext (setNext h p (some q)) x = some q := by
        rw [nodeNext_setNext_ne _ _ _ _ hxp]
        exact hxnext'
      have f2 : nodePrev (setNext h p (some q)) x = some p := by
        rw [nodePrev_setNext]
        exact hxprev'
      have hre : removeHeap h x = setPrev (setNext h p (some q)) q (some p) := by
        simp only [removeHeap, hxprev', hxnext', f1, f2]
      rw [hre]
      refine ⟨by simp, fun i => by simp, ?_, ?_, ?_⟩
      · rw [nodeNext_setPrev, nodeNext_setNext_ne _ _ _ _ hxp]
        exact hxnext'
      · rw [nodePrev_setPrev_ne _ _ _ _ hxq, nodePrev_setNext, hxprev, hgl]
      · rw [seg_append]
        constructor
        · have hor : Option.or ((q :: l2').head?) none = some q := rfl
          rw [hor]
          refine seg_retarget_last hs1 hgl hnd1 ?_ (by simp [hplt]) ?_ ?_
          · intro i hi hip
            have hiq : i ≠ q := fun hc => hd12 i hi (hc ▸ hql2)
            refine ⟨by simp, ?_, ?_⟩
            · rw [nodePrev_setPrev_ne _ _ _ _ hiq, nodePrev_setNext]
            · rw [nodeNext_setPrev, nodeNext_setNext_ne _ _ _ _ hip]
          · rw [nodePrev_setPrev_ne _ _ _ _ hpq, nodePrev_setNext]
          · rw [nodeNext_setPrev, nodeNext_setNext_self _ _ _ hplt]
        · rw [hgl]
          have hor : Option.or (some p) none = some p := rfl
          rw [hor]
          have hq1 : q < (setNext h p (some q)).length := by simp [hqlt]
          refine seg_retarget_head hs3 ?_ (by simp [hqlt]) ?_ ?_
          · intro i hi
            have hiq : i ≠ q := fun hc => hql2' (hc ▸ hi)
            have hip : i ≠ p := fun hc => hd12 p hpl1 (hc ▸ List.mem_cons_of_mem _ hi)
            refine ⟨by simp, ?_, ?_⟩
            · rw [nodePrev_setPrev_ne _ _ _ _ hiq, nodePrev_setNext]
            · rw [nodeNext_setPrev, nodeNext_setNext_ne _ _ _ _ hip]
          · rw [nodePrev_setPrev_self _ _ _ hq1]
          · rw [nodeNext_setPrev, nodeNext_setNext_ne _ _ _ _ (Ne.symm hpq)]

theorem getLast?_append_or {α : Type} (l1 l2 : List α) :
    (l1 ++ l2).getLast? = Option.or l2.getLast? l1.getLast? := by
  rw [List.getLast?_eq_head?_reverse, List.reverse_append, head?_append_or,
    ← List.getLast?_eq_head?_reverse, ← List.getLast?_eq_head?_reverse]

/-- Method `Set` preserves the representation invariant. -/
theorem Inv_Set [DecidableEq K] [Inhabited V] (om : OM K V) (key : K) (v : V)
    (hinv : Inv om = true) : Inv (om.Set key v).1 = true := by
  rw [Inv_iff] at hinv
  obtain ⟨hk, hi, hv, hh, ht, hs⟩ := hinv
  cases hget : mapGet om.data key with
  | some old =>
    have hmem : (key, old) ∈ om.data := mapGet_mem hget
    have hset : (om.Set key v).1 =
        { om with data := mapUpd om.data key { old with value := v } } := by
      simp only [OM.Set, hget]
    rw [hset, Inv_iff]
    have hkeys : (mapUpd om.data key { old with value := v }).map Prod.fst
        = om.data.map Prod.fst := map_fst_mapUpd _ _ _
    have hitems : (mapUpd om.data key { old with value := v }).map (fun p => p.2.item)
        = om.data.map (fun p => p.2.item) := map_mapUpd _ _ hget rfl
    have e1 : keys { om with data := mapUpd om.data key { old with value := v } }
        = (mapUpd om.data key { old with value := v }).map Prod.fst := rfl
    have e2 : items { om with data := mapUpd om.data key { old with value := v } }
        = (mapUpd om.data key { old with value := v }).map (fun p => p.2.item) := rfl
    refine ⟨?_, ?_, ?_, ?_, ?_, ?_⟩
    · rw [e1, hkeys]
      exact hk
    · rw [e2, hitems]
      exact hi
    · intro p hp
      rcases mem_mapUpd p hp with h1 | h2
      · subst h1
        exact hv (key, old) hmem
      · exact hv p h2
    · rw [e2, hitems]
      exact hh
    · rw [e2, hitems]
      exact ht
    · rw [e2, hitems]
      exact hs
  | none =>
    have hnotin : key ∉ om.data.map Prod.fst := (mapGet_eq_none_iff _ _).mp hget
    have hvalid := seg_valid hs
    cases hhd : om.head with
    | none =>
      have hit : items om = [] := by
        rw [hhd] at hh
        exact List.head?_eq_none_iff.mp hh.symm
      have hdata : om.data = [] := List.map_eq_nil_iff.mp hit
      have hset : (om.Set key v).1 =
          { heap := om.heap ++ [(⟨key, none, none⟩ : Node K)],
            data := [(key, ⟨v, om.heap.length⟩)],
            head := some om.heap.length, tail := some om.heap.length } := by
        simp only [OM.Set, hget]
        simp only [hhd, listPush, hdata, mapIns, List.nil_append]
      rw [hset, Inv_iff]
      refine ⟨by simp [keys], by simp [items], ?_, by simp [items], by simp [items], ?_⟩
      · intro p hp
        rw [List.mem_singleton] at hp
        subst hp
        exact nodeValue_concat_self _ _
      · have e2 : items
            { heap := om.heap ++ [(⟨key, none, none⟩ : Node K)],
              data := [(key, ⟨v, om.heap.length⟩)],
              head := some om.heap.length, tail := some om.heap.length } =
            ([om.heap.length] : List Nat) := rfl
        rw [e2, seg_cons_iff]
        exact ⟨by simp, by rw [nodePrev_concat_self], by rw [nodeNext_concat_self]; rfl, rfl⟩
    | some t0 =>
      have hhead : (items om).head? = some t0 := by rw [← hh, hhd]
      have hitne : items om ≠ [] := by
        intro hc
        rw [hc] at hhead
        simp at hhead
      obtain ⟨t, htl, hgl⟩ : ∃ t, om.tail = some t ∧ (items om).getLast? = some t := by
        cases hgl : (items om).getLast? with
        | none => exact absurd (List.getLast?_eq_none_iff.mp hgl) hitne
        | some t => exact ⟨t, by rw [ht, hgl], rfl⟩
      have hset : (om.Set key v).1 =
          { heap := setPrev (setNext (om.heap ++ [(⟨key, none, none⟩ : Node K)]) t
              (some om.heap.length)) om.heap.length (some t),
            data := om.data ++ [(key, ⟨v, om.heap.length⟩)],
            head := some t0, tail := some om.heap.length } := by
        simp only [OM.Set, hget, hhd, htl, listPush, mapIns]
      rw [hset, Inv_iff]
      have e1 : keys
          { heap := setPrev (setNext (om.heap ++ [(⟨key, none, none⟩ : Node K)]) t
              (some om.heap.length)) om.heap.length (some t),
            data := om.data ++ [(key, ⟨v, om.heap.length⟩)],
            head := some t0, tail := some om.heap.length } =
          om.data.map Prod.fst ++ [key] := by
        simp [keys]
      have e2 : items
          { heap := setPrev (setNext (om.heap ++ [(⟨key, none, none⟩ : Node K)]) t
              (some om.heap.length)) om.heap.length (some t),
            data := om.data ++ [(key, ⟨v, om.heap.length⟩)],
            head := some t0, tail := some om.heap.length } =
          items om ++ [om.heap.length] := by
        simp [items]
      have hfresh : om.heap.length ∉ items om := by
        intro hc
        exact absurd (hvalid _ hc) (lt_irrefl _)
      refine ⟨?_, ?_, ?_, ?_, ?_, ?_⟩
      · rw [e1, List.nodup_append]
        refine ⟨hk, List.nodup_singleton _, ?_⟩
        intro a ha hamem
        rw [List.mem_singleton] at hamem
        subst hamem
        exact hnotin ha
      · rw [e2, List.nodup_append]
        refine ⟨hi, List.nodup_singleton _, ?_⟩
        intro a ha hamem
        rw [List.mem_singleton] at hamem
        subst hamem
        exact hfresh ha
      · intro p hp
        rcases List.mem_append.mp hp with h1 | h1
        · have hplt : p.2.item < om.heap.length :=
            hvalid _ (List.mem_map.mpr ⟨p, h1, rfl⟩)
          show nodeValue (setPrev (setNext _ _ _) _ _) p.2.item = some p.1
          rw [nodeValue_setPrev, nodeValue_setNext, nodeValue_append_lt _ _ _ hplt]
          exact hv p h1
        · rw [List.mem_singleton] at h1
          subst h1
          show nodeValue (setPrev (setNext _ _ _) _ _) om.heap.length = some key
          rw [nodeValue_setPrev, nodeValue_setNext, nodeValue_concat_self]
      · rw [e2, head?_append_or, hhead]
        rfl
      · rw [e2, List.getLast?_concat]
      · rw [e2]
        exact seg_push hs hgl hi

/-- Method `Delete` preserves the representation invariant. -/
theorem Inv_Delete [DecidableEq K] [Inhabited V] (om : OM K V) (key : K)
    (hinv : Inv om = true) : Inv (om.Delete key).1 = true := by
  rw [Inv_iff] at hinv
  obtain ⟨hk, hi, hv, hh, ht, hs⟩ := hinv
  cases hget : mapGet om.data key with
  | none =>
    have hset : (om.Delete key).1 = om := by simp only [OM.Delete, hget]
    rw [hset, Inv_iff]
    exact ⟨hk, hi, hv, hh, ht, hs⟩
  | some e =>
    obtain ⟨d1, d2, hdata, hnot1, hdel⟩ := mapGet_split hget
    have hitems : items om =
        d1.map (fun p => p.2.item) ++ e.item :: d2.map (fun p => p.2.item) := by
      rw [items, hdata]
      simp
    have hseg' : seg om.heap none
        (d1.map (fun p => p.2.item) ++ e.item :: d2.map (fun p => p.2.item)) none = true := by
      rw [← hitems]
      exact hs
    have hnd' : (d1.map (fun p => p.2.item) ++ e.item :: d2.map (fun p => p.2.item)).Nodup := by
      rw [← hitems]
      exact hi
    obtain ⟨hlen, hval, hnx, hpv, hseg2⟩ := removeHeap_spec hseg' hnd'
    have hset : (om.Delete key).1 =
        { heap := removeHeap om.heap e.item,
          data := d1 ++ d2,
          head := if om.head = some e.item
            then nodeNext (removeHeap om.heap e.item) e.item else om.head,
          tail := if om.tail = some e.item
            then nodePrev (removeHeap om.heap e.item) e.item else om.tail } := by
      simp only [OM.Delete, hget, listRemove_eq, hdel]
    rw [hset, Inv_iff]
    have hsub : (d1 ++ d2).Sublist om.data := by
      rw [hdata]
      exact List.Sublist.append_left (List.Sublist.cons _ (List.Sublist.refl _)) _
    have e1 : keys
        { heap := removeHeap om.heap e.item, data := d1 ++ d2,
          head := if om.head = some e.item
            then nodeNext (removeHeap om.heap e.item) e.item else om.head,
          tail := if om.tail = some e.item
            then nodePrev (removeHeap om.heap e.item) e.item else om.tail } =
        (d1 ++ d2).map Prod.fst := rfl
    have e2 : items
        { heap := removeHeap om.heap e.item, data := d1 ++ d2,
          head := if om.head = some e.item
            then nodeNext (removeHeap om.heap e.item) e.item else om.head,
          tail := if om.tail = some e.item
            then nodePrev (removeHeap om.heap e.item) e.item else om.tail } =
        d1.map (fun p => p.2.item) ++ d2.map (fun p => p.2.item) := by
      simp [items]
    have hxnotl1 : e.item ∉ d1.map (fun p => p.2.item) := by
      rw [List.nodup_append] at hnd'
      exact fun hc => hnd'.2.2 hc (List.mem_cons_self _ _)
    have hxnotl2 : e.item ∉ d2.map (fun p => p.2.item) := by
      rw [List.nodup_append, List.nodup_cons] at hnd'
      exact hnd'.2.1.1
    refine ⟨?_, ?_, ?_, ?_, ?_, ?_⟩
    · rw [e1]
      exact List.Nodup.sublist (List.Sublist.map _ hsub) hk
    · rw [e2]
      have hsub2 : (d1.map (fun p => p.2.item) ++ d2.map (fun p => p.2.item)).Sublist
          (items om) := by
        rw [items, ← List.map_append]
        exact List.Sublist.map _ hsub
      exact List.Nodup.sublist hsub2 hi
    · intro p hp
      rw [hval]
      exact hv p (List.Sublist.mem hp hsub)
    · rw [e2]
      rw [hitems] at hh
      cases hd1 : d1 with
      | nil =>
        subst hd1
        simp only [List.map_nil, List.nil_append, List.head?_cons] at hh ⊢
        rw [if_pos hh]
        exact hnx
      | cons c d1' =>
        subst hd1
        simp only [List.map_cons, List.cons_append, List.head?_cons] at hh ⊢
        have hcx : c.2.item ≠ e.item := by
          intro hc
          apply hxnotl1
          rw [← hc]
          exact List.mem_map.mpr ⟨c, List.mem_cons_self _ _, rfl⟩
        have hcond : ¬(om.head = some e.item) := by
          rw [hh]
          exact fun hc => hcx (Option.some_inj.mp hc)
        rw [if_neg hcond]
        exact hh
    · rw [e2]
      rw [hitems] at ht
      cases hd2 : d2 with
      | nil =>
        subst hd2
        simp only [List.map_nil, List.append_nil] at ht ⊢
        rw [List.getLast?_concat] at ht
        rw [if_pos ht]
        exact hpv
      | cons c d2' =>
        subst hd2
        have hl2ne : (c :: d2').map (fun p => p.2.item) ≠ [] := by simp
        obtain ⟨u, hu⟩ : ∃ u, ((c :: d2').map (fun p => p.2.item)).getLast? = some u := by
          cases hgl : ((c :: d2').map (fun p => p.2.item)).getLast? with
          | none => exact absurd (List.getLast?_eq_none_iff.mp hgl) hl2ne
          | some u => exact ⟨u, rfl⟩
        have humem : u ∈ (c :: d2').map (fun p => p.2.item) := getLast?_mem_of_eq hu
        have hux : u ≠ e.item := by
          intro hc
          apply hxnotl2
          rw [← hc]
          exact humem
        have htail : (d1.map (fun p => p.2.item) ++
            e.item :: (c :: d2').map (fun p => p.2.item)).getLast? = some u := by
          rw [getLast?_append_or, getLast?_cons_or, hu]
          rfl
        rw [htail] at ht
        have hcond : ¬(om.tail = some e.item) := by
          rw [ht]
          exact fun hc => hux (Option.some_inj.mp hc)
        rw [if_neg hcond]
        rw [ht, getLast?_append_or, hu]
        rfl
    · rw [e2]
      exact hseg2

/-! ## Reachable states -/

/-- A public mutating call. -/
inductive Op (K V : Type) where
  | set (key : K) (v : V)
  | del (key : K)

/-- Apply one call, keeping only the state. -/
def OM.apply [DecidableEq K] [Inhabited V] (om : OM K V) : Op K V → OM K V
  | .set key v => (om.Set key v).1
  | .del key => (om.Delete key).1

/-- The state reached from the empty map by a sequence of calls. -/
def run [DecidableEq K] [Inhabited V] (ops : List (Op K V)) : OM K V :=
  ops.foldl OM.apply New

/-- Every state reachable through the public interface satisfies the central
invariant. -/
theorem Inv_run [DecidableEq K] [Inhabited V] (ops : List (Op K V)) :
    Inv (run ops) = true := by
  suffices hgen : ∀ om : OM K V, Inv om = true → Inv (ops.foldl OM.apply om) = true from
    hgen New Inv_New
  induction ops with
  | nil => exact fun om h => h
  | cons op rest ih =>
    intro om h
    rw [List.foldl_cons]
    refine ih _ ?_
    cases op with
    | set key v => exact Inv_Set om key v h
    | del key => exact Inv_Delete om key h

/-! ## Traversals of the order list -/

/-- Follow `next` from a cursor, collecting up to `fuel` node indices: forward
traversal of the order list. -/
def fwdIds (h : List (Node K)) : Nat → Option Nat → List Nat
  | 0, _ => []
  | _ + 1, none => []
  | fuel + 1, some c => c :: fwdIds h fuel (nodeNext h c)

/-- Follow `previous` from a cursor, collecting up to `fuel` node indices:
backward traversal of the order list. -/
def bwdIds (h : List (Node K)) : Nat → Option Nat → List Nat
  | 0, _ => []
  | _ + 1, none => []
  | fuel + 1, some c => c :: bwdIds h fuel (nodePrev h c)

theorem fwd_of_seg {h : List (Node K)} {ids : List Nat} :
    ∀ {pr : Option Nat} {fuel : Nat}, seg h pr ids none = true → ids.length ≤ fuel →
      fwdIds h fuel ids.head? = ids := by
  induction ids with
  | nil =>
    intro pr fuel _ _
    cases fuel <;> rfl
  | cons a rest ih =>
    intro pr fuel hseg hlen
    rw [seg_cons_iff] at hseg
    obtain ⟨-, -, hnext, htail⟩ := hseg
    cases fuel with
    | zero => simp at hlen
    | succ f =>
      show a :: fwdIds h f (nodeNext h a) = a :: rest
      congr 1
      rw [hnext, Option.or_none]
      exact ih htail (by simpa using Nat.le_of_succ_le_succ hlen)

theorem bwd_of_seg {h : List (Node K)} {ids : List Nat} :
    ∀ {nx : Option Nat} {fuel : Nat}, seg h none ids nx = true → ids.length ≤ fuel →
      bwdIds h fuel ids.getLast? = ids.reverse := by
  induction ids using List.reverseRecOn with
  | nil =>
    intro nx fuel _ _
    cases fuel <;> rfl
  | append_singleton l t ih =>
    intro nx fuel hseg hlen
    rw [seg_append] at hseg
    obtain ⟨hs1, hs2⟩ := hseg
    rw [show Option.or ([t].head?) nx = some t from rfl] at hs1
    rw [Option.or_none, seg_cons_iff] at hs2
    obtain ⟨-, htprev, -, -⟩ := hs2
    rw [List.getLast?_concat]
    cases fuel with
    | zero => simp at hlen
    | succ f =>
      show t :: bwdIds h f (nodePrev h t) = (l ++ [t]).reverse
      rw [List.reverse_append, List.reverse_cons, List.reverse_nil, List.nil_append,
        List.singleton_append]
      congr 1
      rw [htprev]
      refine ih hs1 ?_
      have : (l ++ [t]).length = l.length + 1 := by simp
      omega

/-- A nodup chain of valid arena indices is no longer than the arena. -/
theorem items_length_le [DecidableEq K] {om : OM K V} (hinv : Inv om = true) :
    (items om).length ≤ om.heap.length := by
  rw [Inv_iff] at hinv
  have hnd := hinv.2.1
  have hval := seg_valid hinv.2.2.2.2.2
  have hsub : (items om).toFinset ⊆ Finset.range om.heap.length := by
    intro i hi
    rw [List.mem_toFinset] at hi
    rw [Finset.mem_range]
    exact hval i hi
  have hcard := Finset.card_le_card hsub
  rwa [List.toFinset_card_of_nodup hnd, Finset.card_range] at hcard

/-! ## What the iterator produces -/

theorem runIter_of_seg [DecidableEq K] [Inhabited K] [Inhabited V] (om : OM K V) :
    ∀ (rest : List (K × Element V)) {pr : Option Nat} {fuel : Nat},
      rest.length ≤ fuel →
      seg om.heap pr (rest.map fun p => p.2.item) none = true →
      (∀ p ∈ rest, nodeValue om.heap p.2.item = some p.1) →
      (∀ p ∈ rest, mapGet om.data p.1 = some p.2) →
      om.runIter fuel ((rest.map fun p => p.2.item).head?) =
        rest.map (fun p => (p.1, p.2.value)) := by
  intro rest
  induction rest with
  | nil =>
    intro pr fuel _ _ _ _
    cases fuel <;> rfl
  | cons p rest ih =>
    intro pr fuel hlen hseg hval hget
    obtain ⟨k, e⟩ := p
    cases fuel with
    | zero => simp at hlen
    | succ f =>
      simp only [List.map_cons] at hseg ⊢
      rw [seg_cons_iff] at hseg
      obtain ⟨hlt, hprev, hnext, htail⟩ := hseg
      have hvk : nodeValue om.heap e.item = some k := hval (k, e) (List.mem_cons_self _ _)
      obtain ⟨nd, hnd, hndv⟩ : ∃ nd, om.heap[e.item]? = some nd ∧ nd.value = k := by
        unfold nodeValue at hvk
        rcases hx : om.heap[e.item]? with - | nd
        · rw [hx] at hvk
          simp at hvk
        · rw [hx] at hvk
          exact ⟨nd, rfl, by simpa using hvk⟩
      have hgetk : mapGet om.data k = some e := hget (k, e) (List.mem_cons_self _ _)
      have hstep : om.iterNext (some e.item) = (k, e.value, true, nd.next) := by
        simp only [OM.iterNext, hnd, hndv, hgetk]
      have hnext' : nd.next = (rest.map fun p => p.2.item).head? := by
        have : nodeNext om.heap e.item = nd.next := by
          unfold nodeNext
          rw [hnd]
          rfl
        rw [← this, hnext, Option.or_none]
      have hrw : om.runIter (f + 1) (some e.item) =
          (k, e.value) :: om.runIter f nd.next := by
        simp only [OM.runIter, hstep]
      rw [List.head?_cons, hrw, hnext']
      congr 1
      refine ih (by simpa using Nat.le_of_succ_le_succ hlen) htail ?_ ?_
      · exact fun q hq => hval q (List.mem_cons_of_mem _ hq)
      · exact fun q hq => hget q (List.mem_cons_of_mem _ hq)

/-- Under the invariant a fresh iterator yields exactly the `data` entries, in
the order they sit in `data` (first-insertion order), resolving each key's
current value. -/
theorem toPairs_eq [DecidableEq K] [Inhabited K] [Inhabited V] {om : OM K V}
    (hinv : Inv om = true) :
    om.toPairs = om.data.map (fun p => (p.1, p.2.value)) := by
  have hinv' := (Inv_iff om).mp hinv
  obtain ⟨hk, hi, hv, hh, ht, hs⟩ := hinv'
  unfold OM.toPairs OM.Iterator
  rw [hh]
  exact runIter_of_seg om om.data (le_refl _) hs hv
    (fun p hp => mapGet_of_mem_nodup hk hp)

/-! ## First-introduction order of a sequence of Set calls -/

/-- The keys of a sequence, keeping only the first occurrence of each key. -/
def firstIntro [DecidableEq K] : List K → List K
  | [] => []
  | k :: rest => k :: (firstIntro rest).filter (fun x => decide (x ≠ k))

theorem mem_firstIntro [DecidableEq K] (l : List K) (x : K) :
    x ∈ firstIntro l ↔ x ∈ l := by
  induction l with
  | nil => simp [firstIntro]
  | cons k rest ih =>
    simp only [firstIntro, List.mem_cons, List.mem_filter, ih, decide_eq_true_eq]
    constructor
    · rintro (h | ⟨h, -⟩)
      · exact Or.inl h
      · exact Or.inr h
    · rintro (h | h)
      · exact Or.inl h
      · by_cases hxk : x = k
        · exact Or.inl hxk
        · exact Or.inr ⟨h, hxk⟩

theorem firstIntro_snoc [DecidableEq K] (l : List K) (k : K) :
    firstIntro (l ++ [k]) = if k ∈ l then firstIntro l else firstIntro l ++ [k] := by
  induction l with
  | nil => simp [firstIntro]
  | cons a l' ih =>
    have hunf : firstIntro ((a :: l') ++ [k]) =
        a :: (firstIntro (l' ++ [k])).filter (fun x => decide (x ≠ a)) := rfl
    rw [hunf, ih]
    by_cases hkl : k ∈ l'
    · rw [if_pos hkl, if_pos (List.mem_cons_of_mem a hkl)]
      rfl
    · rw [if_neg hkl]
      by_cases hka : k = a
      · subst hka
        rw [if_pos (List.mem_cons_self _ _), List.filter_append]
        have hfk : List.filter (fun x => decide (x ≠ k)) [k] = [] := by simp
        rw [hfk, List.append_nil]
        rfl
      · have hnotin : ¬ k ∈ a :: l' := by
          rw [List.mem_cons]
          rintro (hc | hc)
          · exact hka hc
          · exact hkl hc
        rw [if_neg hnotin, List.filter_append]
        have hfk : List.filter (fun x => decide (x ≠ a)) [k] = [k] := by simp [hka]
        rw [hfk]
        exact (List.cons_append a _ [k]).symm

/-- The state after a sequence of `Set` calls on a fresh map. -/
def runSets [DecidableEq K] [Inhabited V] (l : List (K × V)) : OM K V :=
  run (l.map fun p => Op.set p.1 p.2)

theorem data_Set_none [DecidableEq K] [Inhabited V] (om : OM K V) (key : K) (v : V)
    (hget : mapGet om.data key = none) :
    ((om.Set key v).1).data = om.data ++ [(key, ⟨v, om.heap.length⟩)] := by
  simp only [OM.Set, hget]
  cases om.head with
  | none => rfl
  | some t0 => cases om.tail <;> rfl

theorem data_Set_some [DecidableEq K] [Inhabited V] (om : OM K V) (key : K) (v : V)
    (old : Element V) (hget : mapGet om.data key = some old) :
    ((om.Set key v).1).data = mapUpd om.data key { old with value := v } := by
  simp only [OM.Set, hget]

/-- A `Set` on a fresh key appends that key to the key list. -/
theorem keys_Set_none [DecidableEq K] [Inhabited V] (om : OM K V) (key : K) (v : V)
    (hget : mapGet om.data key = none) :
    keys (om.Set key v).1 = keys om ++ [key] := by
  show ((om.Set key v).1).data.map Prod.fst = om.data.map Prod.fst ++ [key]
  rw [data_Set_none om key v hget]
  simp

/-- A `Set` on an existing key leaves the key list unchanged. -/
theorem keys_Set_some [DecidableEq K] [Inhabited V] (om : OM K V) (key : K) (v : V)
    (old : Element V) (hget : mapGet om.data key = some old) :
    keys (om.Set key v).1 = keys om := by
  show ((om.Set key v).1).data.map Prod.fst = om.data.map Prod.fst
  rw [data_Set_some om key v old hget, map_fst_mapUpd]

/-- The keys of the state after a sequence of `Set` calls are exactly the call
keys in first-introduction order. -/
theorem keys_runSets [DecidableEq K] [Inhabited V] (l : List (K × V)) :
    keys (runSets l : OM K V) = firstIntro (l.map Prod.fst) := by
  induction l using List.reverseRecOn with
  | nil => rfl
  | append_singleton l' p ih =>
    obtain ⟨key, v⟩ := p
    have hrun : (runSets (l' ++ [(key, v)]) : OM K V) = ((runSets l').Set key v).1 := by
      unfold runSets run
      rw [List.map_append, List.foldl_append]
      rfl
    have hmapp : (l' ++ [(key, v)]).map Prod.fst = l'.map Prod.fst ++ [key] := by simp
    rw [hrun, hmapp, firstIntro_snoc]
    by_cases hmem : key ∈ l'.map Prod.fst
    · rw [if_pos hmem]
      cases hget : mapGet (runSets l' : OM K V).data key with
      | none =>
        exfalso
        have hnot : key ∉ keys (runSets l' : OM K V) := (mapGet_eq_none_iff _ _).mp hget
        apply hnot
        rw [ih, mem_firstIntro]
        exact hmem
      | some old => rw [keys_Set_some _ _ _ _ hget, ih]
    · rw [if_neg hmem]
      cases hget : mapGet (runSets l' : OM K V).data key with
      | none => rw [keys_Set_none _ _ _ hget, ih]
      | some old =>
        exfalso
        have hm := mapGet_mem hget
        have hkmem : key ∈ keys (runSets l' : OM K V) :=
          List.mem_map.mpr ⟨(key, old), hm, rfl⟩
        rw [ih, mem_firstIntro] at hkmem
        exact hmem hkmem

/-- The repository's own test vector: eight inserts iterate back in insertion
order. -/
theorem test_vector_iteration_order :
    (let om := ((((((((New : OM String Nat).Set "d" 3).1.Set "b" 8).1.Set "c" 5).1.Set
        "a" 9).1.Set "aa" 33).1.Set "bb" 88).1.Set "cc" 99).1.Set "dd" 55 |>.1
     om.toPairs.map Prod.fst) =
      ["d", "b", "c", "a", "aa", "bb", "cc", "dd"] := by decide

end OrderedMap

namespace OrderedMap

/-! ## The claims -/

/-- Demo state for C1: `New(); Set(1, 10)` — key `1` stores value `10`. -/
def demoC1 : OM Nat Nat := ((New : OM Nat Nat).Set 1 10).1

/-- C1: the claim says `Set` on an existing key returns the value stored
*before* the call.  The source stores `*element` pointers in its map, so the
`old` binding aliases the entry that `om.data[key].value = value` mutates, and
`old.value` read afterwards is the freshly written value: with `1 ↦ 10` stored,
`Set(1, 20)` returns `(20, true)`, not `(10, true)` as the claim (and the
function's own doc comment) require. -/
theorem set_existing_returns_written_value :
    (demoC1.Get 1).1 = 10 ∧
      (demoC1.Set 1 20).2 = (20, true) ∧ (demoC1.Set 1 20).2 ≠ (10, true) := by
  decide

/-- C2: iterating the state reached from a fresh map by any sequence of `Set`
calls yields the keys in first-introduction order, however often values were
overwritten. -/
theorem runSets_iteration_order [DecidableEq K] [Inhabited K] [Inhabited V]
    (l : List (K × V)) :
    ((runSets l : OM K V).toPairs).map Prod.fst = firstIntro (l.map Prod.fst) := by
  have hinv : Inv (runSets l : OM K V) = true := Inv_run _
  rw [toPairs_eq hinv, List.map_map]
  exact keys_runSets l

/-- C3: in every state reachable by `Set`/`Delete` from the empty map, the key
index and the order list are in 1:1 correspondence: walking the order list
from `head` visits exactly the nodes referenced by the index entries (one node
per entry, in order, so each node corresponds to exactly one entry through its
`positionRef`), each such node holds its entry's key, and keys and nodes are
pairwise distinct. -/
theorem run_index_order_correspondence [DecidableEq K] [Inhabited V]
    (ops : List (Op K V)) :
    fwdIds (run ops).heap (run ops).Len (run ops).head =
        (run ops).data.map (fun p => p.2.item) ∧
      (∀ p ∈ (run ops).data, nodeValue (run ops).heap p.2.item = some p.1) ∧
      ((run ops).data.map Prod.fst).Nodup ∧
      ((run ops).data.map (fun p => p.2.item)).Nodup := by
  obtain ⟨hk, hi, hv, hh, ht, hs⟩ := (Inv_iff _).mp (Inv_run ops)
  refine ⟨?_, hv, hk, hi⟩
  rw [hh]
  exact fwd_of_seg hs (by simp [items, OM.Len])

/-- C4: deleting a present key returns its stored value with `true`, shrinks
`Len` by exactly one, removes the key from what a fresh iterator produces, and
makes a subsequent `Get` return `(zero, false)`. -/
theorem delete_present_spec [DecidableEq K] [Inhabited K] [Inhabited V]
    (om : OM K V) (key : K) (e : Element V)
    (hinv : Inv om = true) (hget : mapGet om.data key = some e) :
    (om.Delete key).2 = (e.value, true) ∧
      (om.Delete key).1.Len + 1 = om.Len ∧
      key ∉ ((om.Delete key).1.toPairs).map Prod.fst ∧
      (om.Delete key).1.Get key = ((default : V), false) := by
  have hdata : ((om.Delete key).1).data = mapDel om.data key := by
    simp only [OM.Delete, hget]
  have hk : (keys om).Nodup := ((Inv_iff om).mp hinv).1
  have hgone : mapGet ((om.Delete key).1).data key = none := by
    rw [hdata]
    exact mapGet_mapDel_self hk
  refine ⟨by simp only [OM.Delete, hget], ?_, ?_, ?_⟩
  · show ((om.Delete key).1).data.length + 1 = om.data.length
    rw [hdata]
    exact length_mapDel hget
  · have hinv' : Inv (om.Delete key).1 = true := Inv_Delete om key hinv
    rw [toPairs_eq hinv', List.map_map]
    intro hcon
    have hnot : key ∉ ((om.Delete key).1).data.map Prod.fst :=
      (mapGet_eq_none_iff _ _).mp hgone
    apply hnot
    simpa using hcon
  · show OM.Get _ key = _
    simp only [OM.Get, hgone]

/-- Demo state for the C4 witness: `1 ↦ 10`, then `2 ↦ 20`. -/
def demoC4 : OM Nat Nat := (((New : OM Nat Nat).Set 1 10).1.Set 2 20).1

theorem delete_present_spec_witness :
    Inv demoC4 = true ∧ mapGet demoC4.data 1 = some ⟨10, 0⟩ ∧
      ((demoC4.Delete 1).2 = (10, true) ∧
        (demoC4.Delete 1).1.Len + 1 = demoC4.Len ∧
        1 ∉ ((demoC4.Delete 1).1.toPairs).map Prod.fst ∧
        (demoC4.Delete 1).1.Get 1 = ((default : Nat), false)) :=
  ⟨by decide, by decide, delete_present_spec demoC4 1 ⟨10, 0⟩ (by decide) (by decide)⟩

/-- C5: `Get` and `Delete` on an absent key return `(zero, false)` and leave
the whole state (hence `Len`) unchanged; in particular a second `Delete` of
the same key returns `(zero, false)`. -/
theorem absent_key_noop [DecidableEq K] [Inhabited V] (om : OM K V) (key : K) :
    (mapGet om.data key = none →
        om.Get key = ((default : V), false) ∧
          om.Delete key = (om, (default : V), false)) ∧
      ((om.data.map Prod.fst).Nodup →
        ((om.Delete key).1.Delete key).2 = ((default : V), false)) := by
  constructor
  · intro hget
    constructor
    · simp only [OM.Get, hget]
    · simp only [OM.Delete, hget]
  · intro hnd
    have hres : ∀ om2 : OM K V, mapGet om2.data key = none →
        (om2.Delete key).2 = ((default : V), false) := by
      intro om2 hg
      simp only [OM.Delete, hg]
    cases hget : mapGet om.data key with
    | none =>
      have h1 : (om.Delete key).1 = om := by simp only [OM.Delete, hget]
      rw [h1]
      exact hres om hget
    | some e =>
      have hdata : ((om.Delete key).1).data = mapDel om.data key := by
        simp only [OM.Delete, hget]
      have hgone : mapGet ((om.Delete key).1).data key = none := by
        rw [hdata]
        exact mapGet_mapDel_self hnd
      exact hres _ hgone

theorem absent_key_noop_witness :
    ((New : OM Nat Nat).Get 5 = ((default : Nat), false) ∧
        (New : OM Nat Nat).Delete 5 = ((New : OM Nat Nat), (default : Nat), false)) ∧
      (((New : OM Nat Nat).Delete 5).1.Delete 5).2 = ((default : Nat), false) :=
  ⟨(absent_key_noop (New : OM Nat Nat) 5).1 (by decide),
    (absent_key_noop (New : OM Nat Nat) 5).2 (by decide)⟩

/-- C6: `Set` on an absent key returns `(zero, false)` and grows `Len` by
exactly one. -/
theorem set_new_key_spec [DecidableEq K] [Inhabited V] (om : OM K V) (key : K) (v : V)
    (hget : mapGet om.data key = none) :
    (om.Set key v).2 = ((default : V), false) ∧ (om.Set key v).1.Len = om.Len + 1 := by
  constructor
  · simp only [OM.Set, hget]
  · show ((om.Set key v).1).data.length = om.data.length + 1
    rw [data_Set_none om key v hget]
    simp

theorem set_new_key_spec_witness :
    mapGet (New : OM Nat Nat).data 7 = none ∧
      (((New : OM Nat Nat).Set 7 3).2 = ((default : Nat), false) ∧
        ((New : OM Nat Nat).Set 7 3).1.Len = (New : OM Nat Nat).Len + 1) :=
  ⟨by decide, set_new_key_spec (New : OM Nat Nat) 7 3 (by decide)⟩

/-- C7: in every reachable state the order list is a well-formed doubly linked
list: the forward traversal from `head` is the reverse of the backward
traversal from `tail`, the head's `prev` is nil and the tail's `next` is nil. -/
theorem run_order_list_doubly_linked [DecidableEq K] [Inhabited V]
    (ops : List (Op K V)) :
    fwdIds (run ops).heap (run ops).Len (run ops).head =
        (bwdIds (run ops).heap (run ops).Len (run ops).tail).reverse ∧
      ((run ops).head.bind (nodePrev (run ops).heap)) = none ∧
      ((run ops).tail.bind (nodeNext (run ops).heap)) = none := by
  obtain ⟨hk, hi, hv, hh, ht, hs⟩ := (Inv_iff _).mp (Inv_run ops)
  have hlen : (items (run ops)).length ≤ (run ops).Len := by simp [items, OM.Len]
  have hfwd : fwdIds (run ops).heap (run ops).Len (run ops).head = items (run ops) := by
    rw [hh]
    exact fwd_of_seg hs hlen
  have hbwd : bwdIds (run ops).heap (run ops).Len (run ops).tail =
      (items (run ops)).reverse := by
    rw [ht]
    exact bwd_of_seg hs hlen
  refine ⟨by rw [hfwd, hbwd, List.reverse_reverse], ?_, ?_⟩
  · cases hit : items (run ops) with
    | nil =>
      rw [hh, hit]
      rfl
    | cons i0 rest =>
      rw [hh, hit]
      show nodePrev (run ops).heap i0 = none
      rw [hit] at hs
      exact ((seg_cons_iff _ _ _ _ _).mp hs).2.1
  · cases hgl : (items (run ops)).getLast? with
    | none =>
      rw [ht, hgl]
      rfl
    | some t =>
      rw [ht, hgl]
      show nodeNext (run ops).heap t = none
      have hne : items (run ops) ≠ [] := by
        intro hc
        rw [hc] at hgl
        simp at hgl
      have hT : (items (run ops)).getLast hne = t := by
        rw [List.getLast?_eq_getLast _ hne, Option.some_inj] at hgl
        exact hgl
      have hdec : (items (run ops)).dropLast ++ [t] = items (run ops) := by
        rw [← hT]
        exact List.dropLast_append_getLast hne
      rw [← hdec, seg_append] at hs
      have hs2 := hs.2
      rw [Option.or_none, seg_cons_iff] at hs2
      exact hs2.2.2.1.trans rfl

/-- C8: on a freshly constructed empty map the very first iterator advance
signals termination and no pair is ever produced. -/
theorem iterate_empty_immediate_termination [DecidableEq K] [Inhabited K] [Inhabited V] :
    (New : OM K V).iterNext (New : OM K V).Iterator =
        ((default : K), (default : V), false, none) ∧
      ∀ fuel : Nat, (New : OM K V).runIter fuel (New : OM K V).Iterator = [] := by
  constructor
  · rfl
  · intro fuel
    cases fuel <;> rfl

/-- C9: re-inserting a currently absent key (in particular one that was
deleted earlier) appends it at the tail: the new iteration sequence is the old
one followed by the new pair. -/
theorem reinsert_appends_at_tail [DecidableEq K] [Inhabited K] [Inhabited V]
    (om : OM K V) (key : K) (v : V) (hinv : Inv om = true)
    (hget : mapGet om.data key = none) :
    ((om.Set key v).1).toPairs = om.toPairs ++ [(key, v)] := by
  rw [toPairs_eq (Inv_Set om key v hinv), toPairs_eq hinv, data_Set_none om key v hget]
  simp

/-- Demo state for the C9 witness: insert `1`, insert `2`, delete `1` — key
`1` is now absent because it was previously deleted. -/
def demoC9 : OM Nat Nat := ((((New : OM Nat Nat).Set 1 10).1.Set 2 20).1.Delete 1).1

theorem reinsert_appends_at_tail_witness :
    Inv demoC9 = true ∧ mapGet demoC9.data 1 = none ∧
      ((demoC9.Set 1 30).1).toPairs = demoC9.toPairs ++ [(1, 30)] :=
  ⟨by decide, by decide, reinsert_appends_at_tail demoC9 1 30 (by decide) (by decide)⟩

/-- C10: once an advance call signals termination, the cursor is nil and every
later call (after any number of further advances) again returns
`(zero, zero, false)`. -/
theorem iterator_terminal_stable [DecidableEq K] [Inhabited K] [Inhabited V]
    (om : OM K V) (cur : Option Nat)
    (hdone : (om.iterNext cur).2.2.1 = false) :
    ∀ n : Nat, om.iterNext (om.skipN n (om.iterNext cur).2.2.2) =
      ((default : K), (default : V), false, none) := by
  have hnone : (om.iterNext cur).2.2.2 = none := by
    cases cur with
    | none => rfl
    | some c =>
      cases hc : om.heap[c]? with
      | none => simp only [OM.iterNext, hc]
      | some nd =>
        exfalso
        have htrue : (om.iterNext (some c)).2.2.1 = true := by
          simp only [OM.iterNext, hc]
        rw [hdone] at htrue
        exact absurd htrue (by decide)
  rw [hnone]
  have hskip : ∀ n : Nat, om.skipN n none = none := by
    intro n
    induction n with
    | zero => rfl
    | succ m ihm => exact ihm
  intro n
  rw [hskip n]
  rfl

theorem iterator_terminal_stable_witness :
    ((New : OM Nat Nat).iterNext none).2.2.1 = false ∧
      (New : OM Nat Nat).iterNext
          ((New : OM Nat Nat).skipN 2 ((New : OM Nat Nat).iterNext none).2.2.2) =
        ((default : Nat), (default : Nat), false, none) :=
  ⟨by decide, iterator_terminal_stable (New : OM Nat Nat) none (by decide) 2⟩

end OrderedMap
